import Mathlib

/-!
Verification development for a Streamlit stock-dashboard repository.

The definitions below shallowly embed the data-handling logic of the
repository: the prediction JSON loader (src/utils/data_loaders.py), the
filter pipeline shared by the probability and share tabs
(src/tabs/probability_tab.py, src/tabs/share_tab.py), the per-ticker
latest-row reduction (src/tabs/share_tab.py), and the classification-report
scalar-metric extraction and report-file selection
(src/tabs/classification_tab.py).  JSON values are represented by an
inductive type, machine floats by rationals, and pandas tables by lists.
-/

/-- Shallow embedding of a parsed JSON value (the result of Python
json.load).  Objects keep their key insertion order, as Python dicts do. -/
inductive Json where
  | jnull : Json
  | jbool (b : Bool) : Json
  | jnum (q : ℚ) : Json
  | jstr (s : String) : Json
  | jarr (elems : List Json) : Json
  | jobj (fields : List (String × Json)) : Json

mutual

/-- Decidable equality on JSON values (written by hand because the nested
lists defeat the automatic deriving handler). -/
def decEqJson : (a b : Json) → Decidable (a = b)
  | .jnull, .jnull => isTrue rfl
  | .jnull, .jbool _ => isFalse (fun h => Json.noConfusion h)
  | .jnull, .jnum _ => isFalse (fun h => Json.noConfusion h)
  | .jnull, .jstr _ => isFalse (fun h => Json.noConfusion h)
  | .jnull, .jarr _ => isFalse (fun h => Json.noConfusion h)
  | .jnull, .jobj _ => isFalse (fun h => Json.noConfusion h)
  | .jbool _, .jnull => isFalse (fun h => Json.noConfusion h)
  | .jbool a, .jbool b =>
    if h : a = b then isTrue (congrArg Json.jbool h)
    else isFalse (fun he => h (Json.jbool.inj he))
  | .jbool _, .jnum _ => isFalse (fun h => Json.noConfusion h)
  | .jbool _, .jstr _ => isFalse (fun h => Json.noConfusion h)
  | .jbool _, .jarr _ => isFalse (fun h => Json.noConfusion h)
  | .jbool _, .jobj _ => isFalse (fun h => Json.noConfusion h)
  | .jnum _, .jnull => isFalse (fun h => Json.noConfusion h)
  | .jnum _, .jbool _ => isFalse (fun h => Json.noConfusion h)
  | .jnum a, .jnum b =>
    if h : a = b then isTrue (congrArg Json.jnum h)
    else isFalse (fun he => h (Json.jnum.inj he))
  | .jnum _, .jstr _ => isFalse (fun h => Json.noConfusion h)
  | .jnum _, .jarr _ => isFalse (fun h => Json.noConfusion h)
  | .jnum _, .jobj _ => isFalse (fun h => Json.noConfusion h)
  | .jstr _, .jnull => isFalse (fun h => Json.noConfusion h)
  | .jstr _, .jbool _ => isFalse (fun h => Json.noConfusion h)
  | .jstr _, .jnum _ => isFalse (fun h => Json.noConfusion h)
  | .jstr a, .jstr b =>
    if h : a = b then isTrue (congrArg Json.jstr h)
    else isFalse (fun he => h (Json.jstr.inj he))
  | .jstr _, .jarr _ => isFalse (fun h => Json.noConfusion h)
  | .jstr _, .jobj _ => isFalse (fun h => Json.noConfusion h)
  | .jarr _, .jnull => isFalse (fun h => Json.noConfusion h)
  | .jarr _, .jbool _ => isFalse (fun h => Json.noConfusion h)
  | .jarr _, .jnum _ => isFalse (fun h => Json.noConfusion h)
  | .jarr _, .jstr _ => isFalse (fun h => Json.noConfusion h)
  | .jarr xs, .jarr ys =>
    match decEqJsonList xs ys with
    | isTrue h => isTrue (congrArg Json.jarr h)
    | isFalse h => isFalse (fun he => h (Json.jarr.inj he))
  | .jarr _, .jobj _ => isFalse (fun h => Json.noConfusion h)
  | .jobj _, .jnull => isFalse (fun h => Json.noConfusion h)
  | .jobj _, .jbool _ => isFalse (fun h => Json.noConfusion h)
  | .jobj _, .jnum _ => isFalse (fun h => Json.noConfusion h)
  | .jobj _, .jstr _ => isFalse (fun h => Json.noConfusion h)
  | .jobj _, .jarr _ => isFalse (fun h => Json.noConfusion h)
  | .jobj fs, .jobj gs =>
    match decEqJsonFields fs gs with
    | isTrue h => isTrue (congrArg Json.jobj h)
    | isFalse h => isFalse (fun he => h (Json.jobj.inj he))

/-- Decidable equality on lists of JSON values. -/
def decEqJsonList : (xs ys : List Json) → Decidable (xs = ys)
  | [], [] => isTrue rfl
  | [], _ :: _ => isFalse (fun h => List.noConfusion h)
  | _ :: _, [] => isFalse (fun h => List.noConfusion h)
  | x :: xs, y :: ys =>
    match decEqJson x y with
    | isTrue h1 =>
      match decEqJsonList xs ys with
      | isTrue h2 => isTrue (by rw [h1, h2])
      | isFalse h2 => isFalse (fun he => h2 (List.cons.inj he).2)
    | isFalse h1 => isFalse (fun he => h1 (List.cons.inj he).1)

/-- Decidable equality on JSON object field lists. -/
def decEqJsonFields : (fs gs : List (String × Json)) → Decidable (fs = gs)
  | [], [] => isTrue rfl
  | [], _ :: _ => isFalse (fun h => List.noConfusion h)
  | _ :: _, [] => isFalse (fun h => List.noConfusion h)
  | (k, v) :: fs, (k2, v2) :: gs =>
    if hk : k = k2 then
      match decEqJson v v2 with
      | isTrue hv =>
        match decEqJsonFields fs gs with
        | isTrue ht => isTrue (by rw [hk, hv, ht])
        | isFalse ht => isFalse (fun he => ht (List.cons.inj he).2)
      | isFalse hv =>
        isFalse (fun he => hv (congrArg Prod.snd (List.cons.inj he).1))
    else isFalse (fun he => hk (congrArg Prod.fst (List.cons.inj he).1))

end

instance : DecidableEq Json := decEqJson

/-- Lookup of a key in a field list, first occurrence first, matching Python
dict lookup (field lists built from Python dicts have unique keys). -/
def lookupField (fields : List (String × Json)) (k : String) : Option Json :=
  match fields with
  | [] => none
  | (k2, v) :: rest => if k2 = k then some v else lookupField rest k

/-- Python dict update d[k] = v on an insertion-ordered field list: if the key
is present its value is replaced in place, otherwise the pair is appended. -/
def dictSet (d : List (String × Json)) (k : String) (v : Json) :
    List (String × Json) :=
  if d.any (fun p => p.1 = k) then
    d.map (fun p => if p.1 = k then (k, v) else p)
  else d ++ [(k, v)]

/-- Python double-star dict merge: starting from d, set every field of e in
order.  Models the expression that builds each record in load_predictions,
where the injected Ticker field comes first and the entry fields override. -/
def dictMerge (d e : List (String × Json)) : List (String × Json) :=
  e.foldl (fun acc p => dictSet acc p.1 p.2) d

/-- Whether a JSON value is an object (Python isinstance of dict). -/
def isObj : Json → Bool
  | .jobj _ => true
  | _ => false

/-- Field list of a JSON object, empty for non-objects. -/
def fieldsOf : Json → List (String × Json)
  | .jobj fs => fs
  | _ => []

/-- Normalization of one dict entry of the predictions JSON root, from
load_predictions: a list value emits one record per dict element, merging the
injected Ticker with the element fields; a dict value emits a single merged
record; any other value emits nothing. -/
def normalizeEntry (tk : String) : Json → List (List (String × Json))
  | .jarr elems =>
    elems.filterMap (fun e =>
      match e with
      | .jobj fs => some (dictMerge [("Ticker", Json.jstr tk)] fs)
      | _ => none)
  | .jobj fs => [dictMerge [("Ticker", Json.jstr tk)] fs]
  | _ => []

/-- Normalization of the parsed JSON root into a list of records, from
load_predictions: a dict root is flattened per key; a list root is used as is
(its dict elements become the records; a list root with non-dict elements and
scalar roots, which make pandas raise, are outside every claim and are mapped
to the records their dict elements give). -/
def normalizeRoot : Json → List (List (String × Json))
  | .jobj kvs => kvs.flatMap (fun p => normalizeEntry p.1 p.2)
  | .jarr elems =>
    elems.filterMap (fun e =>
      match e with
      | .jobj fs => some fs
      | _ => none)
  | _ => []

/-- One cell of the normalized pandas table: either missing (NaN, None, NaT or
pd.NA, none of which survive the later coercions differently), a raw JSON
value, a datetime produced by pd.to_datetime (kept as its millisecond value),
or a float produced by pd.to_numeric (kept as a rational). -/
inductive Cell where
  | na : Cell
  | raw (j : Json) : Cell
  | timestamp (ms : ℚ) : Cell
  | number (q : ℚ) : Cell
  deriving DecidableEq

/-- Digit test for the decimal parsers. -/
def isDigitC (c : Char) : Bool := '0' ≤ c && c ≤ '9'

/-- Numeric value of a digit list, most significant first. -/
def digitsToNat (ds : List Char) : ℕ :=
  ds.foldl (fun a c => 10 * a + (c.toNat - 48)) 0

/-- Value of a decimal fraction part. -/
def fracValue (ds : List Char) : ℚ :=
  (digitsToNat ds : ℚ) / (10 : ℚ) ^ ds.length

/-- Parse of a plain decimal string, an optional sign then digits with at most
one dot: the common subset of the numeric strings pd.to_numeric and
pd.to_datetime accept (exponents, infinities and surrounding whitespace are
outside every claim and are not modelled). -/
def parseDecimal (cs : List Char) : Option ℚ :=
  let signed : Bool × List Char :=
    match cs with
    | '-' :: rest => (true, rest)
    | '+' :: rest => (false, rest)
    | _ => (false, cs)
  let body := signed.2
  let ds := body.takeWhile isDigitC
  let rest := body.drop ds.length
  let mag : Option ℚ :=
    match rest with
    | [] => if ds.isEmpty then none else some (digitsToNat ds : ℚ)
    | '.' :: fs =>
      if fs.all isDigitC && !(ds.isEmpty && fs.isEmpty) then
        some ((digitsToNat ds : ℚ) + fracValue fs)
      else none
    | _ => none
  mag.map (fun q => if signed.1 then -q else q)

/-- Coercion pd.to_datetime(value, unit ms, errors coerce) of one cell:
numbers (and numeric strings) become the datetime at that many milliseconds,
everything else becomes NaT. -/
def coerceDateCell : Cell → Cell
  | .raw (.jnum q) => .timestamp q
  | .raw (.jstr s) =>
    match parseDecimal s.toList with
    | some q => .timestamp q
    | none => .na
  | .timestamp q => .timestamp q
  | _ => .na

/-- Coercion pd.to_numeric(value, errors coerce) of one cell: numbers stay,
numeric strings parse, booleans become 0 or 1, datetimes become their
nanosecond count, everything else becomes NaN. -/
def coerceNumCell : Cell → Cell
  | .raw (.jnum q) => .number q
  | .raw (.jstr s) =>
    match parseDecimal s.toList with
    | some q => .number q
    | none => .na
  | .raw (.jbool b) => .number (if b then 1 else 0)
  | .number q => .number q
  | .timestamp q => .number (q * 1000000)
  | _ => .na

/-- The four guaranteed columns of the prediction table. -/
def requiredCols : List String := ["Ticker", "Date", "ProbUp", "Signal"]

/-- Column list of pd.DataFrame built from a list of records: the union of the
record keys in first-seen order. -/
def seenCols (records : List (List (String × Json))) : List String :=
  records.foldl
    (fun acc rec =>
      rec.foldl (fun a p => if a.contains p.1 then a else a ++ [p.1]) acc)
    []

/-- The loader loop that appends each required column missing from the frame. -/
def ensureCols (cols : List String) : List String :=
  requiredCols.foldl (fun acc c => if acc.contains c then acc else acc ++ [c]) cols

/-- Cell of a record at a column: the raw field value when present, otherwise
missing (pandas NaN for absent keys, pd.NA for the appended columns). -/
def cellOf (rec : List (String × Json)) (c : String) : Cell :=
  match lookupField rec c with
  | some j => .raw j
  | none => .na

/-- Column-wise coercion pass of load_predictions: the Date column goes
through pd.to_datetime(unit ms, errors coerce) and the ProbUp column through
pd.to_numeric(errors coerce). -/
def coerceByCol (c : String) (v : Cell) : Cell :=
  if c = "Date" then coerceDateCell v
  else if c = "ProbUp" then coerceNumCell v
  else v

/-- The normalized prediction table: its column names in order and its rows,
each row aligned with the column list. -/
structure PredTable where
  cols : List String
  rows : List (List Cell)
  deriving DecidableEq

/-- Frame construction of load_predictions after normalization: build the
frame from the records, ensure the required columns, coerce Date and ProbUp. -/
def tableOfRecords (records : List (List (String × Json))) : PredTable :=
  let cols := ensureCols (seenCols records)
  ⟨cols, records.map (fun rec => cols.map (fun c => coerceByCol c (cellOf rec c)))⟩

/-- Shallow embedding of load_predictions (src/utils/data_loaders.py).  The
argument is the file system content at the path: none when the file does not
exist, some of the parsed JSON otherwise.  A missing file returns the empty
frame with exactly the four required columns; otherwise the root is
normalized to records and the frame is built from them. -/
def load_predictions (file : Option Json) : PredTable :=
  match file with
  | none => ⟨requiredCols, []⟩
  | some raw => tableOfRecords (normalizeRoot raw)

/-- Lookup in a mapped list where the key's occurrences are replaced. -/
theorem lookupField_mapSet (k : String) (v : Json) :
    ∀ d : List (String × Json), (d.any fun p => p.1 = k) = true →
    lookupField (d.map (fun p => if p.1 = k then (k, v) else p)) k = some v := by
  intro d
  induction d with
  | nil => intro h; simp at h
  | cons p rest ih =>
    intro h
    by_cases hp : p.1 = k
    · rw [List.map_cons, if_pos hp]
      simp [lookupField]
    · rw [List.map_cons, if_neg hp]
      show (if p.1 = k then some p.2 else _) = some v
      rw [if_neg hp]
      exact ih (by simpa [List.any_cons, hp] using h)

/-- Lookup of a key appended at the end of a list not containing it. -/
theorem lookupField_appendSelf (k : String) (v : Json) :
    ∀ d : List (String × Json), (d.any fun p => p.1 = k) = false →
    lookupField (d ++ [(k, v)]) k = some v := by
  intro d
  induction d with
  | nil => simp [lookupField]
  | cons p rest ih =>
    intro h
    simp only [List.any_cons, Bool.or_eq_false_iff, decide_eq_false_iff_not] at h
    show (if p.1 = k then some p.2 else lookupField (rest ++ [(k, v)]) k) = some v
    rw [if_neg h.1]
    exact ih (by simpa using h.2)

/-- Setting a key always makes it the value found by lookup. -/
theorem lookupField_dictSet_self (d : List (String × Json)) (k : String)
    (v : Json) : lookupField (dictSet d k v) k = some v := by
  unfold dictSet
  split
  · exact lookupField_mapSet k v d (by assumption)
  · exact lookupField_appendSelf k v d
      (by rename_i h; simp only [Bool.not_eq_true] at h; exact h)

/-- Setting one key leaves lookups of other keys unchanged. -/
theorem lookupField_dictSet_other (d : List (String × Json)) (k k2 : String)
    (v : Json) (hne : k2 ≠ k) :
    lookupField (dictSet d k2 v) k = lookupField d k := by
  unfold dictSet
  split
  · rename_i hAny
    clear hAny
    induction d with
    | nil => rfl
    | cons p rest ih =>
      by_cases hp : p.1 = k2
      · rw [List.map_cons, if_pos hp]
        show (if k2 = k then some v else _) = _
        rw [if_neg hne]
        show _ = (if p.1 = k then some p.2 else lookupField rest k)
        rw [if_neg (by rw [hp]; exact hne)]
        exact ih
      · rw [List.map_cons, if_neg hp]
        show (if p.1 = k then some p.2 else _) = (if p.1 = k then some p.2 else _)
        by_cases hk : p.1 = k
        · rw [if_pos hk, if_pos hk]
        · rw [if_neg hk, if_neg hk]
          exact ih
  · rename_i hAny
    clear hAny
    induction d with
    | nil =>
      show (if k2 = k then some v else lookupField [] k) = lookupField [] k
      rw [if_neg hne]
    | cons p rest ih =>
      show (if p.1 = k then some p.2 else _) = (if p.1 = k then some p.2 else _)
      by_cases hk : p.1 = k
      · rw [if_pos hk, if_pos hk]
      · rw [if_neg hk, if_neg hk]
        exact ih

/-- Merging fields that do not contain a key leaves that key's lookup
unchanged. -/
theorem lookupField_dictMerge_of_not_mem (e : List (String × Json)) :
    ∀ (d : List (String × Json)) (k : String), k ∉ e.map Prod.fst →
    lookupField (dictMerge d e) k = lookupField d k := by
  induction e with
  | nil => intro d k _; rfl
  | cons p rest ih =>
    intro d k hk
    simp only [List.map_cons, List.mem_cons] at hk
    push_neg at hk
    show lookupField (dictMerge (dictSet d p.1 p.2) rest) k = _
    rw [ih _ k hk.2, lookupField_dictSet_other _ _ _ _ (fun h => hk.1 h.symm)]

/-- Merging a field list with unique keys makes every key of the merged-in
list resolve to its own value, overriding the base: the double-star update in
load_predictions lets an entry's own Ticker win over the injected one. -/
theorem lookupField_dictMerge_of_lookup (e : List (String × Json)) :
    ∀ (d : List (String × Json)) (k : String) (v : Json),
    (e.map Prod.fst).Nodup → lookupField e k = some v →
    lookupField (dictMerge d e) k = some v := by
  induction e with
  | nil => intro d k v _ hv; simp [lookupField] at hv
  | cons p rest ih =>
    intro d k v hnd hv
    simp only [List.map_cons, List.nodup_cons] at hnd
    by_cases hp : p.1 = k
    · subst hp
      have hvv : v = p.2 := by
        have h2 : (if p.1 = p.1 then some p.2 else lookupField rest p.1) = some v := hv
        rw [if_pos rfl] at h2
        exact (Option.some.inj h2).symm
      subst hvv
      show lookupField (dictMerge (dictSet d p.1 p.2) rest) p.1 = some p.2
      rw [lookupField_dictMerge_of_not_mem rest _ p.1 hnd.1]
      exact lookupField_dictSet_self d p.1 p.2
    · have hv2 : lookupField rest k = some v := by
        have h2 : (if p.1 = k then some p.2 else lookupField rest k) = some v := hv
        rwa [if_neg hp] at h2
      exact ih _ k v hnd.2 hv2

/-- The record each flattened entry produces, injecting the ticker key. -/
def mergeTicker (tk : String) (e : Json) : List (String × Json) :=
  dictMerge [("Ticker", Json.jstr tk)] (fieldsOf e)

/-- A dict entry holding a list of objects normalizes to the merged record of
each object in order. -/
theorem normalizeEntry_jarr_of_obj (tk : String) (es : List Json)
    (h : ∀ e ∈ es, isObj e = true) :
    normalizeEntry tk (Json.jarr es) = es.map (mergeTicker tk) := by
  induction es with
  | nil => rfl
  | cons e es ih =>
    have he := h e (List.mem_cons_self e es)
    have hrest : ∀ x ∈ es, isObj x = true := fun x hx => h x (List.mem_cons_of_mem e hx)
    cases e with
    | jobj fs =>
      show mergeTicker tk (Json.jobj fs) :: normalizeEntry tk (Json.jarr es) = _
      rw [List.map_cons, ih hrest]
    | jnull => exact absurd he (by simp [isObj])
    | jbool b => exact absurd he (by simp [isObj])
    | jnum q => exact absurd he (by simp [isObj])
    | jstr s => exact absurd he (by simp [isObj])
    | jarr xs => exact absurd he (by simp [isObj])

/-- A flat-list root whose elements are all objects normalizes to the field
list of each element in order. -/
theorem normalizeRoot_jarr_of_obj (es : List Json)
    (h : ∀ e ∈ es, isObj e = true) :
    normalizeRoot (Json.jarr es) = es.map fieldsOf := by
  induction es with
  | nil => rfl
  | cons e es ih =>
    have he := h e (List.mem_cons_self e es)
    have hrest : ∀ x ∈ es, isObj x = true := fun x hx => h x (List.mem_cons_of_mem e hx)
    cases e with
    | jobj fs =>
      show fs :: normalizeRoot (Json.jarr es) = _
      rw [List.map_cons, ih hrest]
      rfl
    | jnull => exact absurd he (by simp [isObj])
    | jbool b => exact absurd he (by simp [isObj])
    | jnum q => exact absurd he (by simp [isObj])
    | jstr s => exact absurd he (by simp [isObj])
    | jarr xs => exact absurd he (by simp [isObj])

/-- C1: loading a JSON whose root maps each ticker to a list of record
objects yields exactly the same normalized table (columns, rows and values)
as loading the equivalent flat list in which each record carries its explicit
injected Ticker field. -/
theorem claim1_dict_and_flat_roots_load_equal (kvs : List (String × List Json))
    (hobj : ∀ p ∈ kvs, ∀ e ∈ p.2, isObj e = true) :
    load_predictions (some (Json.jobj (kvs.map (fun p => (p.1, Json.jarr p.2))))) =
      load_predictions (some (Json.jarr (kvs.flatMap (fun p =>
        p.2.map (fun e => Json.jobj (mergeTicker p.1 e)))))) := by
  show tableOfRecords _ = tableOfRecords _
  refine congrArg tableOfRecords ?_
  show (kvs.map (fun p => (p.1, Json.jarr p.2))).flatMap
      (fun p => normalizeEntry p.1 p.2) = _
  rw [List.flatMap_map]
  have hL : ∀ p ∈ kvs, normalizeEntry p.1 (Json.jarr p.2) =
      p.2.map (mergeTicker p.1) := by
    intro p hp
    exact normalizeEntry_jarr_of_obj p.1 p.2 (hobj p hp)
  have hR : normalizeRoot (Json.jarr (kvs.flatMap (fun p =>
      p.2.map (fun e => Json.jobj (mergeTicker p.1 e))))) =
      kvs.flatMap (fun p => p.2.map (mergeTicker p.1)) := by
    rw [normalizeRoot_jarr_of_obj]
    · rw [List.map_flatMap]
      refine List.flatMap_congr ?_
      intro p _
      rw [List.map_map]
      rfl
    · intro e he
      rw [List.mem_flatMap] at he
      obtain ⟨p, _, hpe⟩ := he
      rw [List.mem_map] at hpe
      obtain ⟨x, _, hx⟩ := hpe
      rw [← hx]
      rfl
  rw [hR]
  exact List.flatMap_congr hL

/-- C1 witness: the two example files of the claim, an object mapping ticker
A to one record and the flat one-record list, load to the same table. -/
theorem claim1_dict_and_flat_roots_load_equal_witness :
    load_predictions (some (Json.jobj [("A", Json.jarr [Json.jobj
      [("Date", Json.jnum 0), ("ProbUp", Json.jnum (7/10)),
       ("Signal", Json.jstr "UP")]])])) =
    load_predictions (some (Json.jarr [Json.jobj
      [("Ticker", Json.jstr "A"), ("Date", Json.jnum 0),
       ("ProbUp", Json.jnum (7/10)), ("Signal", Json.jstr "UP")]])) := by
  have h := claim1_dict_and_flat_roots_load_equal
    [("A", [Json.jobj [("Date", Json.jnum 0), ("ProbUp", Json.jnum (7/10)),
      ("Signal", Json.jstr "UP")]])]
    (by intro p hp e he; simp at hp; rw [hp] at he; simp at he; rw [he]; rfl)
  exact h

/-- C5: loading a path whose file does not exist returns, rather than
raises, an empty table whose columns are exactly Ticker, Date, ProbUp and
Signal.  The loader is a total function, so no error can be raised. -/
theorem claim5_missing_file_gives_empty_required_table :
    load_predictions none = ⟨["Ticker", "Date", "ProbUp", "Signal"], []⟩ := rfl

/-- C10: in the dict-root normalization, an entry whose own fields contain a
Ticker key keeps its own value, overriding the injected mapping key; entries
that are neither objects nor lists produce no records; list elements that
are not objects produce no records. -/
theorem claim10_ticker_override_and_non_object_entries_skipped :
    (∀ (tk : String) (fields : List (String × Json)) (v : Json),
      (fields.map Prod.fst).Nodup →
      lookupField fields "Ticker" = some v →
      lookupField (mergeTicker tk (Json.jobj fields)) "Ticker" = some v)
    ∧ (∀ tk : String,
        normalizeEntry tk Json.jnull = []
        ∧ (∀ b, normalizeEntry tk (Json.jbool b) = [])
        ∧ (∀ q, normalizeEntry tk (Json.jnum q) = [])
        ∧ (∀ s, normalizeEntry tk (Json.jstr s) = []))
    ∧ (∀ (tk : String) (x : Json) (xs : List Json), isObj x = false →
        normalizeEntry tk (Json.jarr (x :: xs)) = normalizeEntry tk (Json.jarr xs)) := by
  refine ⟨?_, ?_, ?_⟩
  · intro tk fields v hnd hv
    exact lookupField_dictMerge_of_lookup fields _ "Ticker" v hnd hv
  · intro tk
    exact ⟨rfl, fun b => rfl, fun q => rfl, fun s => rfl⟩
  · intro tk x xs hx
    cases x with
    | jobj fs => simp [isObj] at hx
    | jnull => rfl
    | jbool b => rfl
    | jnum q => rfl
    | jstr s => rfl
    | jarr ys => rfl

/-- C10 witness: a record under key A carrying its own Ticker B keeps B, and
a string entry as well as a non-object list element produce no record. -/
theorem claim10_ticker_override_witness :
    lookupField (mergeTicker "A" (Json.jobj
      [("Ticker", Json.jstr "B"), ("Date", Json.jnum 1)])) "Ticker" =
        some (Json.jstr "B")
    ∧ normalizeEntry "A" (Json.jstr "oops") = []
    ∧ normalizeEntry "A" (Json.jarr [Json.jnum 3]) = normalizeEntry "A" (Json.jarr []) := by
  refine ⟨?_, ?_, ?_⟩
  · exact claim10_ticker_override_and_non_object_entries_skipped.1 "A"
      [("Ticker", Json.jstr "B"), ("Date", Json.jnum 1)] (Json.jstr "B")
      (by decide) rfl
  · exact (claim10_ticker_override_and_non_object_entries_skipped.2.1 "A").2.2.2 "oops"
  · exact claim10_ticker_override_and_non_object_entries_skipped.2.2 "A"
      (Json.jnum 3) [] rfl

/-- One row of a prediction table as the tab pipelines see it, one cell per
guaranteed column. -/
structure PredRow where
  ticker : Cell
  date : Cell
  probUp : Cell
  signal : Cell
  deriving DecidableEq

/-- The sort orders offered by the sidebar select box. -/
inductive SortKey where
  | probUpDesc : SortKey
  | probUpAsc : SortKey
  | tickerAsc : SortKey
  deriving DecidableEq

/-- The sidebar filter state handed to both tab renderers: signal check
boxes, the inclusive probability range, the sort order and the optional row
limit (none renders the All choice). -/
structure FilterSpec where
  includeUp : Bool
  includeDown : Bool
  probMin : ℚ
  probMax : ℚ
  sortKey : SortKey
  limit : Option ℕ
  deriving DecidableEq

/-- The active signal list built by both tabs: UP when included, then DOWN
when included, and the safety fallback to both when neither box is set. -/
def signalsFor (includeUp includeDown : Bool) : List String :=
  let signals := (if includeUp then ["UP"] else []) ++
    (if includeDown then ["DOWN"] else [])
  if signals = [] then ["UP", "DOWN"] else signals

/-- The Signal_u column: astype(str).str.upper() of the signal cell.  String
cells upper-case; the Python renderings of missing values, numbers and
other non-strings never equal UP or DOWN, which is all the pipeline ever
asks of them, and are modelled by their upper-cased Python forms. -/
def signalUpper : Cell → String
  | .raw (.jstr s) => s.toUpper
  | .raw .jnull => "NONE"
  | .raw (.jbool b) => if b then "TRUE" else "FALSE"
  | .raw (.jnum q) => "#NUM " ++ toString q
  | .raw (.jarr _) => "#ARR"
  | .raw (.jobj _) => "#OBJ"
  | .timestamp q => "#TS " ++ toString q
  | .number q => "#NUM " ++ toString q
  | .na => "NAN"

/-- The signal filter stage of both tabs: keep the rows whose upper-cased
signal is in the active signal list. -/
def signalFilter (spec : FilterSpec) (rows : List PredRow) : List PredRow :=
  rows.filter (fun r =>
    (signalsFor spec.includeUp spec.includeDown).contains (signalUpper r.signal))

/-- The coerced probability used by the range filter:
pd.to_numeric(errors coerce) followed by fillna(-1). -/
def probForFilter (c : Cell) : ℚ :=
  match coerceNumCell c with
  | .number q => q
  | _ => -1

/-- The probability range filter stage of both tabs: keep rows whose coerced
probability lies between the bounds, both ends inclusive. -/
def probFilter (spec : FilterSpec) (rows : List PredRow) : List PredRow :=
  rows.filter (fun r =>
    spec.probMin ≤ probForFilter r.probUp && probForFilter r.probUp ≤ spec.probMax)

/-- C3: with both signal boxes cleared the fallback makes the signal filter
keep exactly the rows it keeps with both boxes set, row for row, so the
pipeline never silently filters everything out on that account. -/
theorem claim3_both_false_signal_filter_equals_both_true
    (rows : List PredRow) (probMin probMax : ℚ) (sortKey : SortKey)
    (limit : Option ℕ) :
    signalFilter ⟨false, false, probMin, probMax, sortKey, limit⟩ rows =
      signalFilter ⟨true, true, probMin, probMax, sortKey, limit⟩ rows := rfl

/-- C4: a row whose ProbUp cell coerces to missing (null or unparseable) is
scored -1 by the range filter and is therefore dropped by every range with
bounds inside the unit interval; a numeric ProbUp is kept exactly when it
lies between the bounds, inclusive at both ends.  The filter is a total
function, so unparseable values never raise. -/
theorem claim4_na_prob_excluded_and_range_inclusive (spec : FilterSpec) :
    (∀ (rows : List PredRow) (r : PredRow),
      0 ≤ spec.probMin → spec.probMin ≤ spec.probMax → spec.probMax ≤ 1 →
      coerceNumCell r.probUp = Cell.na → r ∉ probFilter spec rows)
    ∧ (∀ c : Cell, coerceNumCell c = Cell.na → probForFilter c = -1)
    ∧ (∀ (rows : List PredRow) (r : PredRow) (q : ℚ),
      coerceNumCell r.probUp = Cell.number q → (r ∈ probFilter spec rows ↔
        r ∈ rows ∧ spec.probMin ≤ q ∧ q ≤ spec.probMax)) := by
  have hval : ∀ c : Cell, coerceNumCell c = Cell.na → probForFilter c = -1 := by
    intro c hc
    unfold probForFilter
    rw [hc]
  refine ⟨?_, hval, ?_⟩
  · intro rows r h0 _ _ hna hmem
    rw [probFilter, List.mem_filter] at hmem
    have hp := hmem.2
    rw [hval r.probUp hna] at hp
    simp only [Bool.and_eq_true, decide_eq_true_eq] at hp
    linarith [hp.1]
  · intro rows r q hq
    have hpq : probForFilter r.probUp = q := by
      unfold probForFilter
      rw [hq]
    rw [probFilter, List.mem_filter]
    simp only [Bool.and_eq_true, decide_eq_true_eq, hpq]

/-- C4 witness: with the full range 0 to 1, a null-probability row is
dropped while rows at the endpoints 0 and 1 are kept. -/
theorem claim4_na_prob_excluded_witness :
    (PredRow.mk (.raw (.jstr "A")) .na .na (.raw (.jstr "UP")) ∉
      probFilter ⟨true, true, 0, 1, .probUpDesc, none⟩
        [⟨.raw (.jstr "A"), .na, .na, .raw (.jstr "UP")⟩,
         ⟨.raw (.jstr "B"), .na, .number 1, .raw (.jstr "UP")⟩])
    ∧ (PredRow.mk (.raw (.jstr "B")) .na (.number 1) (.raw (.jstr "UP")) ∈
      probFilter ⟨true, true, 0, 1, .probUpDesc, none⟩
        [⟨.raw (.jstr "A"), .na, .na, .raw (.jstr "UP")⟩,
         ⟨.raw (.jstr "B"), .na, .number 1, .raw (.jstr "UP")⟩]) := by
  constructor
  · exact (claim4_na_prob_excluded_and_range_inclusive
      ⟨true, true, 0, 1, .probUpDesc, none⟩).1 _ _
      (by norm_num) (by norm_num) (by norm_num) rfl
  · exact ((claim4_na_prob_excluded_and_range_inclusive
      ⟨true, true, 0, 1, .probUpDesc, none⟩).2.2
      [⟨.raw (.jstr "A"), .na, .na, .raw (.jstr "UP")⟩,
       ⟨.raw (.jstr "B"), .na, .number 1, .raw (.jstr "UP")⟩]
      ⟨.raw (.jstr "B"), .na, .number 1, .raw (.jstr "UP")⟩ 1 rfl).mpr
      ⟨by simp, by norm_num, by norm_num⟩

/-- Strict comparison of optional sort keys with missing values last,
modelling the na_position last policy of pandas sort_values. -/
def optValLt {α : Type} [LinearOrder α] : Option α → Option α → Bool
  | some a, some b => decide (a < b)
  | some _, none => true
  | none, _ => false

/-- Asymmetry of the optional-key comparison. -/
theorem optValLt_asymm {α : Type} [LinearOrder α] (x y : Option α)
    (h : optValLt x y = true) : optValLt y x = false := by
  cases x with
  | none => cases y <;> simp [optValLt] at h
  | some a =>
    cases y with
    | none => simp [optValLt]
    | some b =>
      simp only [optValLt, decide_eq_true_eq] at h
      simp only [optValLt, decide_eq_false_iff_not]
      exact not_lt_of_lt h

/-- Irreflexivity of the optional-key comparison. -/
theorem optValLt_irrefl {α : Type} [LinearOrder α] (x : Option α) :
    optValLt x x = false := by
  cases x <;> simp [optValLt]

/-- Totality of the optional-key comparison on distinct keys. -/
theorem optValLt_total_of_ne {α : Type} [LinearOrder α] (x y : Option α)
    (hne : x ≠ y) : optValLt x y = true ∨ optValLt y x = true := by
  cases x with
  | none =>
    cases y with
    | none => exact absurd rfl hne
    | some b => right; simp [optValLt]
  | some a =>
    cases y with
    | none => left; simp [optValLt]
    | some b =>
      have hab : a ≠ b := fun h => hne (by rw [h])
      rcases lt_or_gt_of_ne hab with h | h
      · left; simpa [optValLt] using h
      · right; simpa [optValLt] using h

/-- Negative transitivity of the optional-key comparison. -/
theorem optValLt_negtrans {α : Type} [LinearOrder α] (x y z : Option α)
    (h1 : optValLt y x = false) (h2 : optValLt z y = false) :
    optValLt z x = false := by
  cases x with
  | none =>
    cases z with
    | none => simp [optValLt]
    | some c =>
      cases y with
      | none => simp [optValLt] at h2
      | some b => simp [optValLt] at h1
  | some a =>
    cases z with
    | none => simp [optValLt]
    | some c =>
      cases y with
      | none => simp [optValLt] at h2
      | some b =>
        simp only [optValLt, decide_eq_false_iff_not] at h1 h2 ⊢
        intro hca
        exact absurd (lt_of_lt_of_le hca (le_of_not_lt h1)) h2

/-- Ticker sort key of a cell: string cells compare lexicographically by
code point, as Python compares strings, and missing cells sort last; the
hypotheses of the theorems below restrict tables to cells pandas itself
could sort without raising. -/
def tickerSortKey : Cell → Option (List Char)
  | .raw (.jstr s) => some s.toList
  | _ => none

/-- Date sort key of a cell: datetimes compare by value, NaT sorts last. -/
def dateSortKey : Cell → Option ℚ
  | .timestamp q => some q
  | _ => none

/-- The lexicographic two-key comparison of sort_values by Ticker then Date,
missing keys last in each component. -/
def rowSortLt (a b : PredRow) : Bool :=
  optValLt (tickerSortKey a.ticker) (tickerSortKey b.ticker) ||
  (decide (tickerSortKey a.ticker = tickerSortKey b.ticker) &&
    optValLt (dateSortKey a.date) (dateSortKey b.date))

/-- Asymmetry of the two-key row comparison. -/
theorem rowSortLt_asymm (a b : PredRow) (h : rowSortLt a b = true) :
    rowSortLt b a = false := by
  unfold rowSortLt at h ⊢
  rw [Bool.or_eq_false_iff, Bool.and_eq_false_iff]
  rcases Bool.or_eq_true_iff.mp h with h1 | h2
  · refine ⟨optValLt_asymm _ _ h1, Or.inl ?_⟩
    rw [decide_eq_false_iff_not]
    intro he
    rw [he, optValLt_irrefl] at h1
    exact Bool.false_ne_true h1
  · rw [Bool.and_eq_true, decide_eq_true_eq] at h2
    obtain ⟨he, hd⟩ := h2
    refine ⟨?_, Or.inr (optValLt_asymm _ _ hd)⟩
    rw [← he, optValLt_irrefl]

/-- Negative transitivity of the two-key row comparison. -/
theorem rowSortLt_negtrans (a b c : PredRow) (h1 : rowSortLt b a = false)
    (h2 : rowSortLt c b = false) : rowSortLt c a = false := by
  unfold rowSortLt at h1 h2 ⊢
  rw [Bool.or_eq_false_iff, Bool.and_eq_false_iff] at h1 h2 ⊢
  obtain ⟨h1t, h1d⟩ := h1
  obtain ⟨h2t, h2d⟩ := h2
  refine ⟨optValLt_negtrans _ _ _ h1t h2t, ?_⟩
  by_cases hca : tickerSortKey c.ticker = tickerSortKey a.ticker
  · have hcb : tickerSortKey c.ticker = tickerSortKey b.ticker := by
      by_contra hne
      rcases optValLt_total_of_ne _ _ hne with hx | hx
      · rw [h2t] at hx
        exact Bool.false_ne_true hx
      · rw [hca, h1t] at hx
        exact Bool.false_ne_true hx
    have hba : tickerSortKey b.ticker = tickerSortKey a.ticker := by
      rw [← hcb, hca]
    right
    have hd1 : optValLt (dateSortKey b.date) (dateSortKey a.date) = false := by
      rcases h1d with hx | hx
      · rw [decide_eq_false_iff_not] at hx
        exact absurd hba hx
      · exact hx
    have hd2 : optValLt (dateSortKey c.date) (dateSortKey b.date) = false := by
      rcases h2d with hx | hx
      · rw [decide_eq_false_iff_not] at hx
        exact absurd hcb hx
      · exact hx
    exact optValLt_negtrans _ _ _ hd1 hd2
  · left
    rw [decide_eq_false_iff_not]
    exact hca

/-- Insertion of an element into a sorted list before the first element not
strictly below it: equal keys keep the incoming (earlier) element first, the
stable placement Python timsort and the pandas stable multi-key sorter give. -/
def insertSorted {α : Type} (lt : α → α → Bool) (x : α) : List α → List α
  | [] => [x]
  | y :: ys => if lt y x then y :: insertSorted lt x ys else x :: y :: ys

/-- Stable sort by repeated insertion: for a strict weak order this computes
the unique stable sorted permutation, the one a stable library sort returns. -/
def sortStable {α : Type} (lt : α → α → Bool) : List α → List α
  | [] => []
  | x :: xs => insertSorted lt x (sortStable lt xs)

/-- Inserting permutes the element onto the list. -/
theorem insertSorted_perm {α : Type} (lt : α → α → Bool) (x : α) :
    ∀ l : List α, List.Perm (insertSorted lt x l) (x :: l) := by
  intro l
  induction l with
  | nil => exact List.Perm.refl _
  | cons y ys ih =>
    show List.Perm (if lt y x then y :: insertSorted lt x ys else x :: y :: ys) _
    by_cases h : lt y x = true
    · rw [if_pos h]
      exact (ih.cons y).trans (List.Perm.swap x y ys)
    · rw [if_neg h]

/-- Sorting permutes the list. -/
theorem sortStable_perm {α : Type} (lt : α → α → Bool) :
    ∀ l : List α, List.Perm (sortStable lt l) l := by
  intro l
  induction l with
  | nil => exact List.Perm.refl _
  | cons x xs ih =>
    exact (insertSorted_perm lt x (sortStable lt xs)).trans (ih.cons x)

/-- Membership in an inserted list. -/
theorem mem_insertSorted {α : Type} (lt : α → α → Bool) (x z : α) (l : List α) :
    z ∈ insertSorted lt x l ↔ z = x ∨ z ∈ l := by
  rw [(insertSorted_perm lt x l).mem_iff, List.mem_cons]

/-- Membership in a sorted list. -/
theorem mem_sortStable {α : Type} (lt : α → α → Bool) (z : α) (l : List α) :
    z ∈ sortStable lt l ↔ z ∈ l :=
  (sortStable_perm lt l).mem_iff

/-- Inserting into a pairwise non-descending list keeps it pairwise
non-descending, provided the comparison is asymmetric and negatively
transitive on the elements involved. -/
theorem pairwise_insertSorted {α : Type} (lt : α → α → Bool) (x : α) :
    ∀ l : List α,
    (∀ a ∈ x :: l, ∀ b ∈ x :: l, lt a b = true → lt b a = false) →
    (∀ a ∈ x :: l, ∀ b ∈ x :: l, ∀ c ∈ x :: l,
      lt b a = false → lt c b = false → lt c a = false) →
    List.Pairwise (fun a b => lt b a = false) l →
    List.Pairwise (fun a b => lt b a = false) (insertSorted lt x l) := by
  intro l
  induction l with
  | nil =>
    intro _ _ _
    show List.Pairwise _ [x]
    simp
  | cons y ys ih =>
    intro hasym hneg hp
    rw [List.pairwise_cons] at hp
    have hsub : ∀ z ∈ x :: ys, z ∈ x :: y :: ys := by
      intro z hz
      rcases List.mem_cons.mp hz with h1 | h1
      · rw [h1]
        exact List.mem_cons_self x _
      · exact List.mem_cons_of_mem x (List.mem_cons_of_mem y h1)
    show List.Pairwise _ (if lt y x then y :: insertSorted lt x ys else x :: y :: ys)
    by_cases h : lt y x = true
    · rw [if_pos h, List.pairwise_cons]
      constructor
      · intro z hz
        rcases (mem_insertSorted lt x z ys).mp hz with hzx | hzy
        · rw [hzx]
          exact hasym y (List.mem_cons_of_mem x (List.mem_cons_self y ys))
            x (List.mem_cons_self x _) h
        · exact hp.1 z hzy
      · exact ih (fun a ha b hb => hasym a (hsub a ha) b (hsub b hb))
          (fun a ha b hb c hc => hneg a (hsub a ha) b (hsub b hb) c (hsub c hc))
          hp.2
    · rw [if_neg h, List.pairwise_cons]
      have hyx : lt y x = false := by
        cases hxy : lt y x
        · rfl
        · exact absurd hxy h
      constructor
      · intro z hz
        rcases List.mem_cons.mp hz with hzy | hzz
        · rw [hzy]
          exact hyx
        · exact hneg x (List.mem_cons_self x _)
            y (List.mem_cons_of_mem x (List.mem_cons_self y ys))
            z (List.mem_cons_of_mem x (List.mem_cons_of_mem y hzz))
            hyx (hp.1 z hzz)
      · rw [List.pairwise_cons]
        exact ⟨hp.1, hp.2⟩

/-- The stable sort is pairwise non-descending for comparisons asymmetric and
negatively transitive on the list. -/
theorem pairwise_sortStable {α : Type} (lt : α → α → Bool) :
    ∀ l : List α,
    (∀ a ∈ l, ∀ b ∈ l, lt a b = true → lt b a = false) →
    (∀ a ∈ l, ∀ b ∈ l, ∀ c ∈ l,
      lt b a = false → lt c b = false → lt c a = false) →
    List.Pairwise (fun a b => lt b a = false) (sortStable lt l) := by
  intro l
  induction l with
  | nil =>
    intro _ _
    show List.Pairwise _ ([] : List α)
    simp
  | cons x xs ih =>
    intro hasym hneg
    show List.Pairwise _ (insertSorted lt x (sortStable lt xs))
    have hmem : ∀ z ∈ x :: sortStable lt xs, z ∈ x :: xs := by
      intro z hz
      rcases List.mem_cons.mp hz with h1 | h1
      · rw [h1]
        exact List.mem_cons_self x xs
      · exact List.mem_cons_of_mem x ((mem_sortStable lt z xs).mp h1)
    refine pairwise_insertSorted lt x (sortStable lt xs)
      (fun a ha b hb => hasym a (hmem a ha) b (hmem b hb))
      (fun a ha b hb c hc => hneg a (hmem a ha) b (hmem b hb) c (hmem c hc))
      (ih (fun a ha b hb => hasym a (List.mem_cons_of_mem x ha) b (List.mem_cons_of_mem x hb))
        (fun a ha b hb c hc => hneg a (List.mem_cons_of_mem x ha)
          b (List.mem_cons_of_mem x hb) c (List.mem_cons_of_mem x hc)))

/-- In a pairwise-related list every element is the last one or relates to
it. -/
theorem pairwise_rel_getLast {α : Type} {R : α → α → Prop} :
    ∀ (l : List α) (hp : List.Pairwise R l) (hne : l ≠ []) (a : α), a ∈ l →
    a = l.getLast hne ∨ R a (l.getLast hne) := by
  intro l
  induction l with
  | nil => intro _ hne; exact absurd rfl hne
  | cons x xs ih =>
    intro hp hne a ha
    rw [List.pairwise_cons] at hp
    by_cases hxs : xs = []
    · subst hxs
      left
      simpa using ha
    · rw [List.getLast_cons hxs]
      rcases List.mem_cons.mp ha with hax | haxs
      · right
        rw [hax]
        exact hp.1 _ (List.getLast_mem hxs)
      · exact ih hp.2 hxs a haxs

/-- Whether a ticker cell is missing in the pandas dropna sense (NaN, None,
NaT or pd.NA). -/
def tickerIsNA : Cell → Bool
  | .na => true
  | .raw .jnull => true
  | _ => false

/-- Whether a ticker cell is one pandas could group and sort without
raising: a string, or a missing value that dropna removes.  The share-tab
theorems restrict tables to such cells. -/
def tickerCellOk : Cell → Bool
  | .raw (.jstr _) => true
  | .raw .jnull => true
  | .na => true
  | _ => false

/-- Millisecond value of a datetime cell, zero for missing dates; used only
under hypotheses making every date a datetime. -/
def dateMs : Cell → ℚ
  | .timestamp q => q
  | _ => 0

/-- The groupby-tail step: keep each row that has no later row with the same
ticker cell, i.e. the last row of every ticker group in frame order. -/
def lastPerTicker : List PredRow → List PredRow
  | [] => []
  | r :: rest =>
    if rest.any (fun x => decide (x.ticker = r.ticker)) then lastPerTicker rest
    else r :: lastPerTicker rest

/-- Shallow embedding of the share-tab reduction
sort_values by Ticker and Date, dropna on Ticker, groupby Ticker, tail(1)
(src/tabs/share_tab.py): stable two-key sort with missing keys last, drop
missing tickers, keep the last row of each ticker group. -/
def latestPerTicker (rows : List PredRow) : List PredRow :=
  lastPerTicker ((sortStable rowSortLt rows).filter (fun r => !tickerIsNA r.ticker))

/-- The groupby-tail step selects a sublist. -/
theorem lastPerTicker_sublist :
    ∀ l : List PredRow, List.Sublist (lastPerTicker l) l := by
  intro l
  induction l with
  | nil => exact List.Sublist.refl []
  | cons r rest ih =>
    show List.Sublist
      (if rest.any (fun x => decide (x.ticker = r.ticker)) then lastPerTicker rest
        else r :: lastPerTicker rest) (r :: rest)
    by_cases h : rest.any (fun x => decide (x.ticker = r.ticker)) = true
    · rw [if_pos h]
      exact ih.cons r
    · rw [if_neg h]
      exact ih.cons₂ r

/-- The groupby-tail step keeps exactly one row per ticker value present. -/
theorem countP_lastPerTicker (c : Cell) :
    ∀ l : List PredRow,
    (lastPerTicker l).countP (fun r => decide (r.ticker = c)) =
      if l.any (fun r => decide (r.ticker = c)) then 1 else 0 := by
  intro l
  induction l with
  | nil => rfl
  | cons r rest ih =>
    show (if rest.any (fun x => decide (x.ticker = r.ticker)) then lastPerTicker rest
        else r :: lastPerTicker rest).countP _ = _
    by_cases hdup : rest.any (fun x => decide (x.ticker = r.ticker)) = true
    · rw [if_pos hdup]
      by_cases hrc : r.ticker = c
      · have hanyr : rest.any (fun x => decide (x.ticker = c)) = true := by
          rw [List.any_eq_true] at hdup ⊢
          obtain ⟨x, hx, hxr⟩ := hdup
          rw [decide_eq_true_eq] at hxr
          exact ⟨x, hx, by rw [decide_eq_true_eq, hxr, hrc]⟩
        rw [ih, hanyr]
        have hcons : ((r :: rest).any fun x => decide (x.ticker = c)) = true := by
          rw [List.any_cons, hanyr, Bool.or_true]
        rw [hcons]
      · have hstep : ((r :: rest).any fun x => decide (x.ticker = c)) =
            rest.any fun x => decide (x.ticker = c) := by
          rw [List.any_cons, decide_eq_false hrc, Bool.false_or]
        rw [ih, hstep]
    · rw [if_neg hdup, List.countP_cons, ih]
      by_cases hrc : r.ticker = c
      · have hanyr : rest.any (fun x => decide (x.ticker = c)) = false := by
          cases hx : rest.any (fun x => decide (x.ticker = c))
          · rfl
          · exfalso
            apply hdup
            rw [List.any_eq_true] at hx ⊢
            obtain ⟨x, hxm, hxc⟩ := hx
            rw [decide_eq_true_eq] at hxc
            exact ⟨x, hxm, by rw [decide_eq_true_eq, hxc, hrc]⟩
        have hall : ((r :: rest).any fun x => decide (x.ticker = c)) = true := by
          rw [List.any_cons, decide_eq_true hrc, Bool.true_or]
        rw [hanyr, hall, decide_eq_true hrc]
        simp
      · have hstep : ((r :: rest).any fun x => decide (x.ticker = c)) =
            rest.any fun x => decide (x.ticker = c) := by
          rw [List.any_cons, decide_eq_false hrc, Bool.false_or]
        rw [hstep, decide_eq_false hrc]
        simp

/-- In a sorted frame, every row the groupby-tail step keeps is bounded
below by all rows of its ticker group. -/
theorem lastPerTicker_last_of_group :
    ∀ l : List PredRow,
    List.Pairwise (fun a b => rowSortLt b a = false) l →
    ∀ r ∈ lastPerTicker l, ∀ r2 ∈ l, r2.ticker = r.ticker →
    rowSortLt r r2 = false ∨ r2 = r := by
  intro l
  induction l with
  | nil => intro _ r hr; exact absurd hr (List.not_mem_nil r)
  | cons x rest ih =>
    intro hp r hr r2 hr2 htk
    rw [List.pairwise_cons] at hp
    by_cases hdup : rest.any (fun z => decide (z.ticker = x.ticker)) = true
    · have hrrest : r ∈ lastPerTicker rest := by
        have : lastPerTicker (x :: rest) = lastPerTicker rest := by
          show (if _ then _ else _) = _
          rw [if_pos hdup]
        rwa [this] at hr
      rcases List.mem_cons.mp hr2 with hx2 | h2rest
      · left
        rw [hx2]
        exact hp.1 r ((lastPerTicker_sublist rest).subset hrrest)
      · exact ih hp.2 r hrrest r2 h2rest htk
    · have hsplit : lastPerTicker (x :: rest) = x :: lastPerTicker rest := by
        show (if _ then _ else _) = _
        rw [if_neg hdup]
      rw [hsplit] at hr
      rcases List.mem_cons.mp hr with hrx | hrrest
      · rcases List.mem_cons.mp hr2 with hx2 | h2rest
        · right
          rw [hx2, hrx]
        · exfalso
          apply hdup
          rw [List.any_eq_true]
          exact ⟨r2, h2rest, by rw [decide_eq_true_eq, htk, hrx]⟩
      · rcases List.mem_cons.mp hr2 with hx2 | h2rest
        · exfalso
          apply hdup
          rw [List.any_eq_true]
          refine ⟨r, (lastPerTicker_sublist rest).subset hrrest, ?_⟩
          rw [decide_eq_true_eq, ← htk, hx2]
        · exact ih hp.2 r hrrest r2 h2rest htk

/-- Boolean any is invariant under permutation. -/
theorem any_of_perm {α : Type} {l1 l2 : List α} (h : List.Perm l1 l2)
    (p : α → Bool) : l1.any p = l2.any p := by
  rw [Bool.eq_iff_iff, List.any_eq_true, List.any_eq_true]
  exact ⟨fun ⟨x, hx, hp⟩ => ⟨x, h.mem_iff.mp hx, hp⟩,
    fun ⟨x, hx, hp⟩ => ⟨x, h.mem_iff.mpr hx, hp⟩⟩

/-- C7, amended: the reduction keeps exactly one row per string ticker
present, and when every date is a real datetime the kept row carries the
most recent date of its ticker group.  (The counterexample shows that with a
missing date present the kept row is the missing-date one instead, since NaT
sorts last.)  The hypothesis restricts ticker cells to strings and
droppable missing values, the cells pandas could sort and group without
raising. -/
theorem claim7_latest_per_ticker_amended (rows : List PredRow)
    (hT : ∀ r ∈ rows, tickerCellOk r.ticker = true) :
    (∀ t : String,
      (latestPerTicker rows).countP
          (fun r => decide (r.ticker = Cell.raw (Json.jstr t))) =
        if rows.any (fun r => decide (r.ticker = Cell.raw (Json.jstr t)))
          then 1 else 0)
    ∧ ((∀ r ∈ rows, ∃ q : ℚ, r.date = Cell.timestamp q) →
      ∀ r ∈ latestPerTicker rows, ∀ r2 ∈ rows, r2.ticker = r.ticker →
        dateMs r2.date ≤ dateMs r.date) := by
  constructor
  · intro t
    rw [latestPerTicker, countP_lastPerTicker, List.any_filter,
      any_of_perm (sortStable_perm rowSortLt rows)]
    have hpt : ∀ r : PredRow,
        ((!tickerIsNA r.ticker) && decide (r.ticker = Cell.raw (Json.jstr t))) =
          decide (r.ticker = Cell.raw (Json.jstr t)) := by
      intro r
      by_cases hr : r.ticker = Cell.raw (Json.jstr t)
      · rw [decide_eq_true hr, Bool.and_true, hr]
        rfl
      · rw [decide_eq_false hr, Bool.and_false]
    have hfun : (fun a : PredRow =>
        (!tickerIsNA a.ticker) && decide (a.ticker = Cell.raw (Json.jstr t))) =
        (fun r : PredRow => decide (r.ticker = Cell.raw (Json.jstr t))) :=
      funext hpt
    rw [hfun]
  · intro hdates r hr r2 hr2 htk
    have hpl : List.Pairwise (fun a b => rowSortLt b a = false)
        ((sortStable rowSortLt rows).filter (fun r => !tickerIsNA r.ticker)) :=
      List.Pairwise.filter _
        (pairwise_sortStable rowSortLt rows
          (fun a _ b _ => rowSortLt_asymm a b)
          (fun a _ b _ c _ => rowSortLt_negtrans a b c))
    have hrin : r ∈ (sortStable rowSortLt rows).filter (fun r => !tickerIsNA r.ticker) :=
      (lastPerTicker_sublist _).subset hr
    have hrrows : r ∈ rows :=
      (mem_sortStable rowSortLt r rows).mp (List.mem_filter.mp hrin).1
    have hrNA : (!tickerIsNA r.ticker) = true := (List.mem_filter.mp hrin).2
    have hr2in : r2 ∈ (sortStable rowSortLt rows).filter (fun r => !tickerIsNA r.ticker) := by
      rw [List.mem_filter]
      exact ⟨(mem_sortStable rowSortLt r2 rows).mpr hr2, by rw [htk]; exact hrNA⟩
    rcases lastPerTicker_last_of_group _ hpl r hr r2 hr2in htk with hR | heq
    · obtain ⟨q, hq⟩ := hdates r hrrows
      obtain ⟨q2, hq2⟩ := hdates r2 hr2
      rw [rowSortLt, Bool.or_eq_false_iff, Bool.and_eq_false_iff] at hR
      have htkk : tickerSortKey r.ticker = tickerSortKey r2.ticker := by
        rw [htk]
      rcases hR.2 with hx | hx
      · rw [decide_eq_false_iff_not] at hx
        exact absurd htkk hx
      · rw [hq, hq2, dateMs, dateMs]
        rw [hq, hq2] at hx
        show q2 ≤ q
        have : dateSortKey (Cell.timestamp q) = some q := rfl
        rw [dateSortKey, dateSortKey] at hx
        simp only [optValLt, decide_eq_false_iff_not] at hx
        exact le_of_not_lt hx
    · rw [heq]

/-- C7 counterexample: ticker A has a dated row (epoch millisecond 5) and a
missing-date row; the reduction keeps the missing-date row, because NaT
sorts last, and not the row with the most recent date as the claim states. -/
theorem claim7_null_date_beats_latest_counterexample :
    latestPerTicker
      [⟨Cell.raw (Json.jstr "A"), Cell.timestamp 5, Cell.na, Cell.raw (Json.jstr "UP")⟩,
       ⟨Cell.raw (Json.jstr "A"), Cell.na, Cell.na, Cell.raw (Json.jstr "DOWN")⟩] =
      [⟨Cell.raw (Json.jstr "A"), Cell.na, Cell.na, Cell.raw (Json.jstr "DOWN")⟩] := by
  rfl

/-- The concrete three-row table of the C7 witness. -/
def claim7WitnessRows : List PredRow :=
  [⟨Cell.raw (Json.jstr "B"), Cell.timestamp 1, Cell.na, Cell.raw (Json.jstr "UP")⟩,
   ⟨Cell.raw (Json.jstr "A"), Cell.timestamp 3, Cell.na, Cell.raw (Json.jstr "DOWN")⟩,
   ⟨Cell.raw (Json.jstr "A"), Cell.timestamp 7, Cell.na, Cell.raw (Json.jstr "UP")⟩]

/-- C7 witness: on a concrete all-dated table the reduction keeps exactly
one row for ticker A, and the kept A row bounds the date of the earlier A
row. -/
theorem claim7_latest_per_ticker_witness :
    (latestPerTicker claim7WitnessRows).countP
        (fun r => decide (r.ticker = Cell.raw (Json.jstr "A"))) = 1
    ∧ dateMs (Cell.timestamp 3) ≤ dateMs (Cell.timestamp 7) := by
  have h := claim7_latest_per_ticker_amended claim7WitnessRows
    (by
      intro r hr
      rw [claim7WitnessRows] at hr
      rcases List.mem_cons.mp hr with h1 | hr
      · rw [h1]; rfl
      rcases List.mem_cons.mp hr with h1 | hr
      · rw [h1]; rfl
      rcases List.mem_cons.mp hr with h1 | hr
      · rw [h1]; rfl
      · exact absurd hr (List.not_mem_nil r))
  have hdates : ∀ r ∈ claim7WitnessRows, ∃ q : ℚ, r.date = Cell.timestamp q := by
    intro r hr
    rw [claim7WitnessRows] at hr
    rcases List.mem_cons.mp hr with h1 | hr
    · exact ⟨1, by rw [h1]⟩
    rcases List.mem_cons.mp hr with h1 | hr
    · exact ⟨3, by rw [h1]⟩
    rcases List.mem_cons.mp hr with h1 | hr
    · exact ⟨7, by rw [h1]⟩
    · exact absurd hr (List.not_mem_nil r)
  constructor
  · rw [h.1 "A"]
    rfl
  · have hlatest : latestPerTicker claim7WitnessRows =
        [⟨Cell.raw (Json.jstr "A"), Cell.timestamp 7, Cell.na, Cell.raw (Json.jstr "UP")⟩,
         ⟨Cell.raw (Json.jstr "B"), Cell.timestamp 1, Cell.na, Cell.raw (Json.jstr "UP")⟩] := by
      rfl
    have := h.2 hdates
      ⟨Cell.raw (Json.jstr "A"), Cell.timestamp 7, Cell.na, Cell.raw (Json.jstr "UP")⟩
      (by rw [hlatest]; exact List.mem_cons_self _ _)
      ⟨Cell.raw (Json.jstr "A"), Cell.timestamp 3, Cell.na, Cell.raw (Json.jstr "DOWN")⟩
      (by rw [claim7WitnessRows]; exact List.mem_cons_of_mem _ (List.mem_cons_self _ _))
      rfl
    exact this

/-- Whitespace class of the regex escape for spaces, in its ASCII range (the
report text is ASCII): space, tab, newline, carriage return, vertical tab and
form feed. -/
def isSpaceC (c : Char) : Bool :=
  c == ' ' || c == '\t' || c == '\n' || c == '\r' || c == '\x0b' || c == '\x0c'

/-- Greedy match of the captured decimal of the metric patterns, digits then
an optional dot that must be followed by digits to be consumed (backtracking
of the optional dot included): returns the captured value and the rest. -/
def matchNumber (cs : List Char) : Option (ℚ × List Char) :=
  let ds := cs.takeWhile isDigitC
  let rest := cs.drop ds.length
  match rest with
  | '.' :: rest2 =>
    let ds2 := rest2.takeWhile isDigitC
    if ds2.isEmpty then
      if ds.isEmpty then none
      else some ((digitsToNat ds : ℚ), rest)
    else some ((digitsToNat ds : ℚ) + fracValue ds2, rest2.drop ds2.length)
  | _ => if ds.isEmpty then none else some ((digitsToNat ds : ℚ), rest)

/-- Match of a literal character sequence at the front, returning the rest. -/
def matchLit : List Char → List Char → Option (List Char)
  | [], cs => some cs
  | _ :: _, [] => none
  | l :: ls, c :: cs => if c = l then matchLit ls cs else none

/-- Greedy whitespace skip for a starred space class. -/
def skipWs (cs : List Char) : List Char := cs.dropWhile isSpaceC

/-- Greedy skip of plain spaces only, for the starred literal space of the
Recall pattern. -/
def skipSpaces (cs : List Char) : List Char := cs.dropWhile (fun c => c == ' ')

/-- Match of a single colon. -/
def matchColon : List Char → Option (List Char)
  | ':' :: cs => some cs
  | _ => none

/-- Anchored match of the ROC-AUC pattern: the literal ROC-AUC with the colon
attached, then starred whitespace, then the captured decimal.  No whitespace
is allowed before the colon. -/
def matchROCAUCAt (cs : List Char) : Option ℚ :=
  (matchLit (String.toList ("ROC-AUC:")) cs).bind
    (fun r => (matchNumber (skipWs r)).map Prod.fst)

/-- Anchored match of the Accuracy pattern: the literal Accuracy, starred
whitespace, a colon, starred whitespace, the captured decimal. -/
def matchAccuracyAt (cs : List Char) : Option ℚ :=
  (matchLit (String.toList ("Accuracy")) cs).bind
    (fun r => (matchColon (skipWs r)).bind
      (fun r2 => (matchNumber (skipWs r2)).map Prod.fst))

/-- Anchored match of the Precision pattern: like ROC-AUC, the colon is
attached to the literal and no whitespace may precede it. -/
def matchPrecisionAt (cs : List Char) : Option ℚ :=
  (matchLit (String.toList ("Precision:")) cs).bind
    (fun r => (matchNumber (skipWs r)).map Prod.fst)

/-- Anchored match of the Recall pattern: the literal Recall, starred
whitespace, a colon, starred plain spaces, the captured decimal. -/
def matchRecallAt (cs : List Char) : Option ℚ :=
  (matchLit (String.toList ("Recall")) cs).bind
    (fun r => (matchColon (skipWs r)).bind
      (fun r2 => (matchNumber (skipSpaces r2)).map Prod.fst))

/-- Unanchored regex search: try the anchored match at every position, left
to right, and return the first captured value. -/
def searchPat {β : Type} (m : List Char → Option β) : List Char → Option β
  | [] => m []
  | c :: cs =>
    match m (c :: cs) with
    | some v => some v
    | none => searchPat m cs

/-- The four metric patterns in the dict order the code iterates them. -/
def metricMatchers : List (String × (List Char → Option ℚ)) :=
  [("ROC-AUC", matchROCAUCAt), ("Accuracy", matchAccuracyAt),
   ("Precision", matchPrecisionAt), ("Recall", matchRecallAt)]

/-- Shallow embedding of the scalar-metric extraction loop of
render_classification_tab: search each pattern over the whole report text and
keep the labels that matched, in pattern order, with their captured value. -/
def extractMetrics (text : List Char) : List (String × ℚ) :=
  metricMatchers.filterMap
    (fun p => (searchPat p.2 text).map (fun v => (p.1, v)))

/-- A literal match certifies the literal is a prefix. -/
theorem matchLit_some_prefix :
    ∀ ls cs r : List Char, matchLit ls cs = some r → ls <+: cs := by
  intro ls
  induction ls with
  | nil => intro cs r _; exact List.nil_prefix
  | cons l ls ih =>
    intro cs r h
    cases cs with
    | nil => exact absurd h (by simp [matchLit])
    | cons c cs2 =>
      show l :: ls <+: c :: cs2
      by_cases hc : c = l
      · rw [matchLit, if_pos hc] at h
        obtain ⟨t, ht⟩ := ih cs2 r h
        refine ⟨t, ?_⟩
        rw [List.cons_append, ht, hc]
      · rw [matchLit, if_neg hc] at h
        exact absurd h (Option.some_ne_none r).symm

/-- A successful search certifies the pattern literal occurs in the text. -/
theorem searchPat_some_occurs (m : List Char → Option ℚ) (lit : List Char)
    (hm : ∀ cs v, m cs = some v → lit <+: cs) :
    ∀ (text : List Char) (v : ℚ), searchPat m text = some v →
    List.IsInfix lit text := by
  intro text
  induction text with
  | nil =>
    intro v h
    obtain ⟨t, ht⟩ := hm [] v h
    rw [(List.append_eq_nil.mp ht).1]
  | cons c cs ih =>
    intro v h
    cases hmc : m (c :: cs) with
    | some v2 => exact ((hm _ v2 hmc).isInfix)
    | none =>
      have h2 : searchPat m cs = some v := by
        simp only [searchPat, hmc] at h
        exact h
      exact List.infix_cons (ih v h2)

/-- A literal consumes itself at the front of an input. -/
theorem matchLit_append : ∀ ls rest : List Char, matchLit ls (ls ++ rest) = some rest := by
  intro ls rest
  induction ls with
  | nil => rfl
  | cons l ls ih => rw [List.cons_append, matchLit, if_pos rfl, ih]

/-- A starred class consumes a run of characters it accepts. -/
theorem dropWhile_replicate_append (n : ℕ) (c : Char) (l : List Char)
    (p : Char → Bool) (hp : p c = true) :
    List.dropWhile p (List.replicate n c ++ l) = List.dropWhile p l := by
  induction n with
  | zero => rfl
  | succ k ih =>
    rw [List.replicate_succ, List.cons_append, List.dropWhile_cons_of_pos hp, ih]

/-- A search succeeds immediately when the pattern matches at the start. -/
theorem searchPat_of_head (m : List Char → Option ℚ) (text : List Char)
    (v : ℚ) (h : m text = some v) : searchPat m text = some v := by
  cases text with
  | nil => exact h
  | cons c cs => simp only [searchPat, h]

/-- C8, amended: the Accuracy pattern tolerates whitespace on both sides of
its colon and the Recall pattern whitespace before and plain spaces after,
but the ROC-AUC and Precision patterns require the colon to follow the label
immediately (only the whitespace after the colon is starred); a label whose
pattern finds no match is simply absent from the extracted mapping, and the
extraction is a total function, so it never raises. -/
theorem claim8_metric_patterns_amended :
    (∀ text : List Char, ¬ List.IsInfix (String.toList ("ROC-AUC:")) text →
      searchPat matchROCAUCAt text = none)
    ∧ (∀ text : List Char, ¬ List.IsInfix (String.toList ("Precision:")) text →
      searchPat matchPrecisionAt text = none)
    ∧ (∀ n m : ℕ, searchPat matchAccuracyAt (String.toList ("Accuracy") ++
        (List.replicate n ' ' ++ (':' :: (List.replicate m ' ' ++
          String.toList ("0.75"))))) = some (3/4))
    ∧ (∀ n m : ℕ, searchPat matchRecallAt (String.toList ("Recall") ++
        (List.replicate n ' ' ++ (':' :: (List.replicate m ' ' ++
          String.toList ("0.5"))))) = some (1/2))
    ∧ (∀ n : ℕ, searchPat matchROCAUCAt (String.toList ("ROC-AUC:") ++
        (List.replicate n ' ' ++ String.toList ("0.812"))) = some (203/250))
    ∧ (∀ (text : List Char) (v : ℚ), searchPat matchROCAUCAt text = none →
        ("ROC-AUC", v) ∉ extractMetrics text) := by
  have hrocpre : ∀ (cs : List Char) (v : ℚ), matchROCAUCAt cs = some v →
      String.toList ("ROC-AUC:") <+: cs := by
    intro cs v h
    rw [matchROCAUCAt] at h
    obtain ⟨r, hlit, _⟩ := Option.bind_eq_some.mp h
    exact matchLit_some_prefix _ _ _ hlit
  have hprepre : ∀ (cs : List Char) (v : ℚ), matchPrecisionAt cs = some v →
      String.toList ("Precision:") <+: cs := by
    intro cs v h
    rw [matchPrecisionAt] at h
    obtain ⟨r, hlit, _⟩ := Option.bind_eq_some.mp h
    exact matchLit_some_prefix _ _ _ hlit
  refine ⟨?_, ?_, ?_, ?_, ?_, ?_⟩
  · intro text hni
    cases hs : searchPat matchROCAUCAt text with
    | none => rfl
    | some v => exact absurd (searchPat_some_occurs _ _ hrocpre text v hs) hni
  · intro text hni
    cases hs : searchPat matchPrecisionAt text with
    | none => rfl
    | some v => exact absurd (searchPat_some_occurs _ _ hprepre text v hs) hni
  · intro n m
    apply searchPat_of_head
    rw [matchAccuracyAt, matchLit_append, Option.some_bind]
    have h1 : skipWs (List.replicate n ' ' ++ (':' :: (List.replicate m ' ' ++
        String.toList ("0.75")))) = ':' :: (List.replicate m ' ' ++
        String.toList ("0.75")) := by
      rw [skipWs, dropWhile_replicate_append n ' ' _ isSpaceC rfl,
        List.dropWhile_cons_of_neg (by decide)]
    rw [h1]
    have h2 : matchColon (':' :: (List.replicate m ' ' ++ String.toList ("0.75"))) =
        some (List.replicate m ' ' ++ String.toList ("0.75")) := rfl
    rw [h2, Option.some_bind]
    have h3 : skipWs (List.replicate m ' ' ++ String.toList ("0.75")) =
        String.toList ("0.75") := by
      rw [skipWs, dropWhile_replicate_append m ' ' _ isSpaceC rfl]
      rfl
    rw [h3]
    have h4 : Option.map Prod.fst (matchNumber (String.toList ("0.75"))) =
        some ((digitsToNat ['0'] : ℚ) + fracValue ['7', '5']) := rfl
    rw [h4]
    have h5 : fracValue ['7', '5'] = (75 : ℚ) / 100 := by
      have h6 : digitsToNat ['7', '5'] = 75 := rfl
      rw [fracValue, h6]
      norm_num
    rw [show digitsToNat ['0'] = 0 from rfl, h5]
    norm_num
  · intro n m
    apply searchPat_of_head
    rw [matchRecallAt, matchLit_append, Option.some_bind]
    have h1 : skipWs (List.replicate n ' ' ++ (':' :: (List.replicate m ' ' ++
        String.toList ("0.5")))) = ':' :: (List.replicate m ' ' ++
        String.toList ("0.5")) := by
      rw [skipWs, dropWhile_replicate_append n ' ' _ isSpaceC rfl,
        List.dropWhile_cons_of_neg (by decide)]
    rw [h1]
    have h2 : matchColon (':' :: (List.replicate m ' ' ++ String.toList ("0.5"))) =
        some (List.replicate m ' ' ++ String.toList ("0.5")) := rfl
    rw [h2, Option.some_bind]
    have h3 : skipSpaces (List.replicate m ' ' ++ String.toList ("0.5")) =
        String.toList ("0.5") := by
      rw [skipSpaces, dropWhile_replicate_append m ' ' _ _ rfl]
      rfl
    rw [h3]
    have h4 : Option.map Prod.fst (matchNumber (String.toList ("0.5"))) =
        some ((digitsToNat ['0'] : ℚ) + fracValue ['5']) := rfl
    rw [h4]
    have h5 : fracValue ['5'] = (5 : ℚ) / 10 := by
      have h6 : digitsToNat ['5'] = 5 := rfl
      rw [fracValue, h6]
      norm_num
    rw [show digitsToNat ['0'] = 0 from rfl, h5]
    norm_num
  · intro n
    apply searchPat_of_head
    rw [matchROCAUCAt, matchLit_append, Option.some_bind]
    have h1 : skipWs (List.replicate n ' ' ++ String.toList ("0.812")) =
        String.toList ("0.812") := by
      rw [skipWs, dropWhile_replicate_append n ' ' _ isSpaceC rfl]
      rfl
    rw [h1]
    have h4 : Option.map Prod.fst (matchNumber (String.toList ("0.812"))) =
        some ((digitsToNat ['0'] : ℚ) + fracValue ['8', '1', '2']) := rfl
    rw [h4]
    have h5 : fracValue ['8', '1', '2'] = (812 : ℚ) / 1000 := by
      have h6 : digitsToNat ['8', '1', '2'] = 812 := rfl
      rw [fracValue, h6]
      norm_num
    rw [show digitsToNat ['0'] = 0 from rfl, h5]
    norm_num
  · intro text v hnone hmem
    rw [extractMetrics] at hmem
    obtain ⟨p, hp, heq⟩ := List.mem_filterMap.mp hmem
    obtain ⟨a, hs, hpair⟩ := Option.map_eq_some'.mp heq
    have hl : p.1 = "ROC-AUC" := congrArg Prod.fst hpair
    rw [metricMatchers] at hp
    rcases List.mem_cons.mp hp with h1 | hp
    · rw [h1] at hs
      rw [hs] at hnone
      exact Option.some_ne_none a hnone
    rcases List.mem_cons.mp hp with h1 | hp
    · rw [h1] at hl
      exact absurd hl (by decide)
    rcases List.mem_cons.mp hp with h1 | hp
    · rw [h1] at hl
      exact absurd hl (by decide)
    rcases List.mem_cons.mp hp with h1 | hp
    · rw [h1] at hl
      exact absurd hl (by decide)
    · exact absurd hp (List.not_mem_nil p)

/-- C8 counterexample: a report line carrying ROC-AUC with a space before
the colon matches none of the four patterns, so the extracted mapping is
empty, although the claim's both-sides whitespace tolerance would find it. -/
theorem claim8_ws_before_colon_counterexample :
    extractMetrics (String.toList ("ROC-AUC : 0.812")) = [] := by rfl

/-- C8 witness: the space-free ROC-AUC line is still never matched by the
pattern when the literal with its attached colon is absent, an Accuracy line
with spaces around the colon is matched, and the omitted label is absent
from the mapping of the spaced ROC-AUC line. -/
theorem claim8_metric_patterns_witness :
    searchPat matchROCAUCAt (String.toList ("ROC-AUC : 0.812")) = none
    ∧ searchPat matchAccuracyAt (String.toList ("Accuracy : 0.75")) = some (3/4)
    ∧ ("ROC-AUC", (203/250 : ℚ)) ∉ extractMetrics (String.toList ("ROC-AUC : 0.812")) := by
  have h := claim8_metric_patterns_amended
  have hnone : searchPat matchROCAUCAt (String.toList ("ROC-AUC : 0.812")) = none :=
    h.1 _ (by decide)
  refine ⟨hnone, ?_, h.2.2.2.2.2 _ _ hnone⟩
  have h2 := h.2.2.1 1 1
  exact h2

/-- Candidate test of render_classification_tab's directory scan: the
filename starts with the report prefix and ends with the txt suffix. -/
def isReportCandidate (f : List Char) : Bool :=
  (String.toList ("Klassifikationsreport_")).isPrefixOf f &&
    (String.toList (".txt")).isSuffixOf f

/-- Anchored match of the timestamp-extraction regex: the literal report
prefix, exactly eight digits, an underscore, exactly six digits, then the
dot-txt literal; the captured group is the fifteen-character timestamp. -/
def matchTsAt (cs : List Char) : Option (List Char) :=
  (matchLit (String.toList ("Klassifikationsreport_")) cs).bind (fun r =>
    if ((r.take 8).length == 8) && (r.take 8).all isDigitC then
      match r.drop 8 with
      | '_' :: r2 =>
        if ((r2.take 6).length == 6) && (r2.take 6).all isDigitC then
          (matchLit (String.toList (".txt")) (r2.drop 6)).map
            (fun _ => r.take 8 ++ '_' :: r2.take 6)
        else none
      | _ => none
    else none)

/-- Shallow embedding of extract_timestamp: search the filename for the
timestamp pattern and return the captured group, or the empty string. -/
def extract_timestamp (f : List Char) : List Char :=
  (searchPat matchTsAt f).getD []

/-- Days of a month in the Gregorian calendar, as pandas validates them. -/
def daysInMonth (y m : ℕ) : ℕ :=
  if m = 2 then (if y % 4 = 0 && (y % 100 ≠ 0 || y % 400 = 0) then 29 else 28)
  else if m = 4 || m = 6 || m = 9 || m = 11 then 30 else 31

/-- Encoded second of the earliest datetime a pandas Timestamp can hold
(Timestamp.min is 1677-09-21 00:12:43.145224193, so the first representable
whole second is 00:12:44). -/
def tsMinKey : ℕ := ((((1677 * 100 + 9) * 100 + 21) * 100 + 0) * 100 + 12) * 100 + 44

/-- Encoded second of the latest datetime a pandas Timestamp can hold
(Timestamp.max is 2262-04-11 23:47:16.854775807). -/
def tsMaxKey : ℕ := ((((2262 * 100 + 4) * 100 + 11) * 100 + 23) * 100 + 47) * 100 + 16

/-- Shallow embedding of pd.to_datetime(ts, format of YYYYMMDD underscore
HHMMSS) with the default errors equal to raise, as the selection key calls
it: the empty string is a NaT string and yields NaT (ok none); a string of
the right shape holding a calendar-valid datetime inside the representable
Timestamp range yields that Timestamp, encoded as a natural number whose
order is the chronological order; every other string makes pandas raise
(error), which aborts the surrounding sorted call.  The encoding is
field-lexicographic, exact because every field below the year is under
100. -/
def toDatetimeFormat (ts : List Char) : Except Unit (Option ℕ) :=
  match ts with
  | [] => .ok none
  | [y1, y2, y3, y4, mo1, mo2, d1, d2, '_', h1, h2, mi1, mi2, s1, s2] =>
    if [y1, y2, y3, y4, mo1, mo2, d1, d2, h1, h2, mi1, mi2, s1, s2].all isDigitC then
      let y := digitsToNat [y1, y2, y3, y4]
      let mo := digitsToNat [mo1, mo2]
      let d := digitsToNat [d1, d2]
      let h := digitsToNat [h1, h2]
      let mi := digitsToNat [mi1, mi2]
      let s := digitsToNat [s1, s2]
      let e := ((((y * 100 + mo) * 100 + d) * 100 + h) * 100 + mi) * 100 + s
      if (1 ≤ mo && mo ≤ 12 && 1 ≤ d && d ≤ daysInMonth y mo &&
          h ≤ 23 && mi ≤ 59 && s ≤ 59) && (tsMinKey ≤ e && e ≤ tsMaxKey) then
        .ok (some e)
      else .error ()
    else .error ()
  | _ => .error ()

/-- The key computation Python sorted performs for one candidate filename:
to_datetime of the extracted timestamp, raising included. -/
def tsKeyResult (f : List Char) : Except Unit (Option ℕ) :=
  toDatetimeFormat (extract_timestamp f)

/-- Whether the key computation of a filename succeeds (NaT counts as a
successful computation; only a regex-matching but invalid timestamp makes it
raise). -/
def tsKeyOk (f : List Char) : Bool :=
  match tsKeyResult f with
  | .ok _ => true
  | .error _ => false

/-- The sort key of a report filename when its computation succeeds: the
encoded timestamp, or none for NaT.  Only consulted by the sort, which runs
only after every candidate's key computed without raising. -/
def tsKeyOf (f : List Char) : Option ℕ :=
  match tsKeyResult f with
  | .ok k => k
  | .error _ => none

/-- The comparison Python sorted applies to the computed keys: strict order
on timestamps, and false whenever either side is NaT, as every comparison
with NaT is false. -/
def fileLt (f g : List Char) : Bool :=
  match tsKeyOf f, tsKeyOf g with
  | some a, some b => decide (a < b)
  | _, _ => false

/-- The candidate list of the directory scan. -/
def reportCandidates (files : List (List Char)) : List (List Char) :=
  files.filter isReportCandidate

/-- Shallow embedding of the selection of the report to parse: Python sorted
first computes the to_datetime key of every candidate, so if any computation
raises the whole selection raises (error) and the tab aborts; otherwise the
candidates are stably sorted by key and the last is selected.  The code
reaches the selection only with a nonempty candidate list, so the ok-none
result stands for a path the program rules out beforehand.  No theorem below
relies on the tie order Python sorted gives NaT keys, whose comparisons are
all false. -/
def selectLatestReport (files : List (List Char)) : Except Unit (Option (List Char)) :=
  if (reportCandidates files).all tsKeyOk then
    .ok ((sortStable fileLt (reportCandidates files)).getLast?)
  else .error ()

/-- The spec's candidate pattern, for comparison with the code's candidate
test.  Modelled from the spec: the whole filename is the report prefix,
eight digits, an underscore, six digits and the dot-txt suffix. -/
def matchesReportPattern (f : List Char) : Bool :=
  match matchLit (String.toList ("Klassifikationsreport_")) f with
  | none => false
  | some r =>
    (((r.take 8).length == 8) && (r.take 8).all isDigitC) &&
    (match matchLit ['_'] (r.drop 8) with
     | none => false
     | some r2 =>
       (((r2.take 6).length == 6) && (r2.take 6).all isDigitC) &&
         decide (r2.drop 6 = String.toList (".txt")))

/-- A literal match certifies the input splits as literal plus rest. -/
theorem matchLit_some_eq :
    ∀ ls cs r : List Char, matchLit ls cs = some r → cs = ls ++ r := by
  intro ls
  induction ls with
  | nil =>
    intro cs r h
    have : some cs = some r := h
    rw [List.nil_append, Option.some.inj this]
  | cons l ls ih =>
    intro cs r h
    cases cs with
    | nil => exact absurd h (by simp [matchLit])
    | cons c cs2 =>
      by_cases hc : c = l
      · rw [matchLit, if_pos hc] at h
        rw [List.cons_append, hc, ih cs2 r h]
      · rw [matchLit, if_neg hc] at h
        exact absurd h (Option.some_ne_none r).symm

/-- Asymmetry of the report-file comparison, NaT cases included. -/
theorem fileLt_asymm (f g : List Char) (h : fileLt f g = true) :
    fileLt g f = false := by
  cases hf : tsKeyOf f with
  | none => simp [fileLt, hf] at h
  | some a =>
    cases hg : tsKeyOf g with
    | none => simp [fileLt, hf, hg] at h
    | some b =>
      simp only [fileLt, hf, hg, decide_eq_true_eq] at h
      simp only [fileLt, hf, hg, decide_eq_false_iff_not]
      omega

/-- C9, amended: every filename fully matching the spec's timestamp pattern
is a candidate, but candidacy itself is only the prefix and suffix test (the
counterexample names a candidate without the pattern); if any candidate
matches the extraction regex with a calendar-invalid or unrepresentable
timestamp, the key computation raises and no file is selected; and whenever
every candidate embeds a well-formed timestamp, a file is selected as soon
as a candidate exists, it is a candidate, and it carries the greatest
encoded timestamp. -/
theorem claim9_report_selection_amended :
    (∀ f : List Char, matchesReportPattern f = true → isReportCandidate f = true)
    ∧ (∀ files : List (List Char),
        (∃ f ∈ reportCandidates files, tsKeyOk f = false) →
        selectLatestReport files = Except.error ())
    ∧ (∀ files : List (List Char),
        (∀ f ∈ reportCandidates files, (tsKeyOf f).isSome = true) →
        (reportCandidates files ≠ [] →
          ∃ sel, selectLatestReport files = Except.ok (some sel))
        ∧ (∀ sel : List Char, selectLatestReport files = Except.ok (some sel) →
          sel ∈ reportCandidates files ∧
          ∀ f ∈ reportCandidates files,
            (tsKeyOf f).getD 0 ≤ (tsKeyOf sel).getD 0)) := by
  refine ⟨?_, ?_, ?_⟩
  · intro f h
    cases hm : matchLit (String.toList ("Klassifikationsreport_")) f with
    | none =>
      rw [matchesReportPattern, hm] at h
      exact absurd h (by simp)
    | some r =>
      rw [matchesReportPattern, hm] at h
      rw [Bool.and_eq_true] at h
      obtain ⟨h8, hrest⟩ := h
      have hfr : f = String.toList ("Klassifikationsreport_") ++ r :=
        matchLit_some_eq _ _ _ hm
      cases hd : matchLit ['_'] (r.drop 8) with
      | none =>
        rw [hd] at hrest
        exact absurd hrest (by simp)
      | some r2 =>
        rw [hd] at hrest
        rw [Bool.and_eq_true] at hrest
        obtain ⟨h6, htxt⟩ := hrest
        rw [decide_eq_true_eq] at htxt
        have hdr : r.drop 8 = '_' :: r2 := matchLit_some_eq _ _ _ hd
        rw [isReportCandidate, Bool.and_eq_true, List.isPrefixOf_iff_prefix,
          List.isSuffixOf_iff_suffix]
        constructor
        · exact ⟨r, hfr.symm⟩
        · refine ⟨String.toList ("Klassifikationsreport_") ++
            (r.take 8 ++ '_' :: r2.take 6), ?_⟩
          rw [hfr]
          have hr : r = r.take 8 ++ '_' :: r2 := by
            rw [← hdr, List.take_append_drop]
          have hr2 : r2 = r2.take 6 ++ String.toList (".txt") := by
            rw [← htxt, List.take_append_drop]
          rw [List.append_assoc]
          refine congrArg (String.toList ("Klassifikationsreport_") ++ ·) ?_
          rw [List.append_assoc, List.cons_append]
          rw [← hr2]
          exact hr.symm
  · intro files hbad
    obtain ⟨f, hf, hfbad⟩ := hbad
    have hguard : (reportCandidates files).all tsKeyOk = false := by
      cases h : (reportCandidates files).all tsKeyOk
      · rfl
      · have h2 := List.all_eq_true.mp h f hf
        rw [hfbad] at h2
        exact absurd h2 Bool.false_ne_true
    rw [selectLatestReport, if_neg (by rw [hguard]; exact Bool.false_ne_true)]
  · intro files hall
    have hok : ∀ f ∈ reportCandidates files, tsKeyOk f = true := by
      intro f hf
      have h1 := hall f hf
      cases hres : tsKeyResult f with
      | ok k => simp [tsKeyOk, hres]
      | error e =>
        rw [show tsKeyOf f = none from by simp [tsKeyOf, hres]] at h1
        exact absurd h1 (by simp)
    have hguard : (reportCandidates files).all tsKeyOk = true :=
      List.all_eq_true.mpr hok
    have hsel_eq : selectLatestReport files =
        Except.ok ((sortStable fileLt (reportCandidates files)).getLast?) := by
      rw [selectLatestReport, if_pos hguard]
    constructor
    · intro hne
      have hLne : sortStable fileLt (reportCandidates files) ≠ [] := by
        intro h0
        apply hne
        have hlen := (sortStable_perm fileLt (reportCandidates files)).length_eq
        rw [h0] at hlen
        exact List.length_eq_zero.mp hlen.symm
      exact ⟨(sortStable fileLt (reportCandidates files)).getLast hLne,
        by rw [hsel_eq, List.getLast?_eq_getLast _ hLne]⟩
    · intro sel hsel
      have hsel2 : (sortStable fileLt (reportCandidates files)).getLast? = some sel := by
        rw [hsel_eq] at hsel
        exact Except.ok.inj hsel
      have hLne : sortStable fileLt (reportCandidates files) ≠ [] := by
        intro h0
        rw [h0] at hsel2
        exact Option.noConfusion hsel2
      have hselL : sel ∈ sortStable fileLt (reportCandidates files) :=
        List.mem_of_mem_getLast? hsel2
      have hselC : sel ∈ reportCandidates files :=
        (mem_sortStable fileLt sel _).mp hselL
      refine ⟨hselC, ?_⟩
      have hpw := pairwise_sortStable fileLt (reportCandidates files)
        (fun a _ b _ => fileLt_asymm a b)
        (fun a ha b hb c hc h1 h2 => by
          obtain ⟨ka, hka⟩ := Option.isSome_iff_exists.mp (hall a ha)
          obtain ⟨kb, hkb⟩ := Option.isSome_iff_exists.mp (hall b hb)
          obtain ⟨kc, hkc⟩ := Option.isSome_iff_exists.mp (hall c hc)
          simp only [fileLt, hka, hkb, hkc, decide_eq_false_iff_not] at h1 h2 ⊢
          omega)
      have hgl : (sortStable fileLt (reportCandidates files)).getLast? =
          some ((sortStable fileLt (reportCandidates files)).getLast hLne) :=
        List.getLast?_eq_getLast _ hLne
      have hseleq : sel = (sortStable fileLt (reportCandidates files)).getLast hLne := by
        rw [hgl] at hsel2
        exact (Option.some.inj hsel2).symm
      intro f hf
      have hfL : f ∈ sortStable fileLt (reportCandidates files) :=
        (mem_sortStable fileLt f _).mpr hf
      rcases pairwise_rel_getLast _ hpw hLne f hfL with heq | hrel
      · rw [heq, ← hseleq]
      · rw [← hseleq] at hrel
        obtain ⟨kf, hkf⟩ := Option.isSome_iff_exists.mp (hall f hf)
        obtain ⟨ks, hks⟩ := Option.isSome_iff_exists.mp (hall sel hselC)
        simp only [fileLt, hks, hkf, decide_eq_false_iff_not] at hrel
        rw [hkf, hks]
        simp only [Option.getD_some]
        omega

/-- C9 counterexample: the filename Klassifikationsreport underscore notes
dot txt is a candidate under the code's prefix and suffix test although it
does not match the claimed eight-digit underscore six-digit pattern, so
candidacy is not equivalent to the pattern. -/
theorem claim9_candidate_without_pattern_counterexample :
    isReportCandidate (String.toList ("Klassifikationsreport_notes.txt")) = true
    ∧ matchesReportPattern (String.toList ("Klassifikationsreport_notes.txt")) = false :=
  ⟨rfl, rfl⟩

/-- The concrete directory listing of the C9 witness. -/
def claim9WitnessFiles : List (List Char) :=
  [String.toList ("Klassifikationsreport_20230105_120000.txt"),
   String.toList ("notes.txt"),
   String.toList ("Klassifikationsreport_20240101_000000.txt")]

/-- C9 witness: on a listing with two well-formed reports and one
non-candidate, the 2024 report is selected, it is a candidate, and the 2023
report's timestamp key is bounded by its own; a listing whose only candidate
embeds the regex-matching but calendar-invalid timestamp of February 30
makes the selection raise. -/
theorem claim9_report_selection_witness :
    selectLatestReport claim9WitnessFiles =
      Except.ok (some (String.toList ("Klassifikationsreport_20240101_000000.txt")))
    ∧ String.toList ("Klassifikationsreport_20240101_000000.txt") ∈
        reportCandidates claim9WitnessFiles
    ∧ (tsKeyOf (String.toList ("Klassifikationsreport_20230105_120000.txt"))).getD 0 ≤
      (tsKeyOf (String.toList ("Klassifikationsreport_20240101_000000.txt"))).getD 0
    ∧ selectLatestReport [String.toList ("Klassifikationsreport_20230230_120000.txt")] =
        Except.error () := by
  have hcands : reportCandidates claim9WitnessFiles =
      [String.toList ("Klassifikationsreport_20230105_120000.txt"),
       String.toList ("Klassifikationsreport_20240101_000000.txt")] := rfl
  have hsel : selectLatestReport claim9WitnessFiles =
      Except.ok (some (String.toList ("Klassifikationsreport_20240101_000000.txt"))) := rfl
  have hall : ∀ f ∈ reportCandidates claim9WitnessFiles, (tsKeyOf f).isSome = true := by
    intro f hf
    rw [hcands] at hf
    rcases List.mem_cons.mp hf with h1 | hf
    · rw [h1]; rfl
    rcases List.mem_cons.mp hf with h1 | hf
    · rw [h1]; rfl
    · exact absurd hf (List.not_mem_nil f)
  have h := (claim9_report_selection_amended.2.2 claim9WitnessFiles hall).2 _ hsel
  refine ⟨hsel, h.1, ?_, ?_⟩
  · refine h.2 _ ?_
    rw [hcands]
    exact List.mem_cons_self _ _
  · refine claim9_report_selection_amended.2.1 _ ?_
    refine ⟨String.toList ("Klassifikationsreport_20230230_120000.txt"), ?_, rfl⟩
    have hc2 : reportCandidates
        [String.toList ("Klassifikationsreport_20230230_120000.txt")] =
        [String.toList ("Klassifikationsreport_20230230_120000.txt")] := rfl
    rw [hc2]
    exact List.mem_cons_self _ _
